import Mathlib

/-!
Shallow embedding of the `citation-analysis-models` schema module
(`src/__init__.py`) and proofs about its derived-data helpers.

The module declares SQLAlchemy models (Organization, Author,
AuthorCitationsPerYear, Publication, PublicationCitationsPerYear,
Benchmark, Suggestions) together with recursive traversal helpers on the
organization hierarchy and path/ids helpers on authors.  We embed the
stored state as lists of rows, relationship navigation as lookups over
those lists, and the recursive Python methods as fuel-indexed functions
returning `none` exactly when the recursion does not bottom out within
the given fuel.
-/

namespace CitationModels

/-- A row of the `organization` table.  Behaviour-relevant columns are
`id`, `name` and `parent_id`; the remaining nullable metadata columns
(`scholar_org_id`, `location`, `website_url`, `children_source_url`)
carry no logic and are kept as data. -/
structure Organization where
  id : Nat
  name : String
  parentId : Option Nat
  scholarOrgId : Option String := none
  location : Option String := none
  websiteUrl : Option String := none
  childrenSourceUrl : Option String := none
  deriving Repr, DecidableEq

/-- A row of the `author` table.  Behaviour-relevant columns are `id`,
`name` and the nullable `organization_id` foreign key; the remaining
nullable metadata columns carry no logic and are kept as data. -/
structure Author where
  id : Nat
  name : String
  organizationId : Option Nat
  title : Option String := none
  autoOrgAssignment : Option Bool := none
  authorOrgGoogleId : Option String := none
  yearOfPhd : Option Int := none
  tenured : Option Bool := none
  scholarId : Option String := none
  deriving Repr, DecidableEq

/-- A row of the `coauthor` join table: a directed edge from
`author_id` to `coauthor_id`. -/
structure CoauthorEdge where
  authorId : Nat
  coauthorId : Nat
  deriving Repr, DecidableEq

/-- A row of the `author_citations_per_year` table, with composite key
(author id, year). -/
structure AuthorCitationsPerYear where
  authorId : Nat
  year : Int
  citations : Int
  deriving Repr, DecidableEq

/-- A row of the `publication` table (columns without behaviour kept as
data where needed). -/
structure Publication where
  id : Nat
  title : Option String := none
  deriving Repr, DecidableEq

/-- A row of the `publication_citations_per_year` table, with composite
key (publication id, year). -/
structure PublicationCitationsPerYear where
  publicationId : Nat
  year : Int
  citations : Int
  deriving Repr, DecidableEq

/-- The stored state: one list of rows per table that the claims
touch. -/
structure DB where
  orgs : List Organization
  authors : List Author
  coauthorEdges : List CoauthorEdge
  authorCitations : List AuthorCitationsPerYear
  publications : List Publication
  publicationCitations : List PublicationCitationsPerYear
  deriving Repr

/-- Resolve an organization id through the `organization` table (the
store's foreign-key lookup backing the `parent` / `organization`
relations). -/
def findOrg (db : DB) (i : Nat) : Option Organization :=
  db.orgs.find? (fun o => o.id = i)

/-- Resolve an author id through the `author` table. -/
def findAuthor (db : DB) (i : Nat) : Option Author :=
  db.authors.find? (fun a => a.id = i)

/-- The `parent` relation on Organization: follow the nullable
`parent_id` foreign key. -/
def parentOf (db : DB) (o : Organization) : Option Organization :=
  o.parentId.bind (findOrg db)

/-- The `children` backref on Organization: all stored organizations
whose `parent_id` equals this organization's id, in stored order. -/
def childrenOf (db : DB) (o : Organization) : List Organization :=
  db.orgs.filter (fun c => c.parentId = some o.id)

/-- The `organization` relation on Author: follow the nullable
`organization_id` foreign key. -/
def organizationOf (db : DB) (a : Author) : Option Organization :=
  a.organizationId.bind (findOrg db)

/-- `Organization.children_ids`: ids of the immediate children. -/
def children_ids (db : DB) (o : Organization) : List Nat :=
  (childrenOf db o).map (fun c => c.id)

/-- `Organization.ancestors`, fuel-indexed: `[]` when there is no
parent, otherwise the parent consed onto the parent's own ancestors.
`none` means the recursion did not terminate within `fuel` steps. -/
def ancestorsFuel (db : DB) : Nat → Organization → Option (List Organization)
  | 0, _ => none
  | fuel + 1, o =>
    match parentOf db o with
    | none => some []
    | some p => (ancestorsFuel db fuel p).map (fun l => p :: l)

/-- `Organization.ancestor_ids`: the ancestors mapped to ids. -/
def ancestor_idsFuel (db : DB) (fuel : Nat) (o : Organization) : Option (List Nat) :=
  (ancestorsFuel db fuel o).map (fun l => l.map (fun a => a.id))

/-- `Organization.ancestor_tree`: `None` (inner `none`) when there are
no ancestors, otherwise the ancestors' names reversed and joined with
`" :: "`. -/
def ancestor_treeFuel (db : DB) (fuel : Nat) (o : Organization) :
    Option (Option String) :=
  (ancestorsFuel db fuel o).map (fun ancestors =>
    if ancestors.isEmpty then none
    else some (String.intercalate " :: " (ancestors.reverse.map (fun a => a.name))))

/-- Sequence the per-child step of `Organization.descendants` over the
children list: each child is appended, then its own descendants; `none`
propagates from any child's recursion. -/
def seqChildren (f : Organization → Option (List Organization)) :
    List Organization → Option (List Organization)
  | [] => some []
  | c :: rest =>
    match f c, seqChildren f rest with
    | some d, some r => some (c :: (d ++ r))
    | _, _ => none

/-- `Organization.descendants`, fuel-indexed: depth-first pre-order walk
of the `children` relation ("node, then its subtree" per child). -/
def descendantsFuel (db : DB) : Nat → Organization → Option (List Organization)
  | 0, _ => none
  | fuel + 1, o => seqChildren (descendantsFuel db fuel) (childrenOf db o)

/-- `Organization.descendant_ids`: the descendants mapped to ids, in the
same order. -/
def descendant_idsFuel (db : DB) (fuel : Nat) (o : Organization) :
    Option (List Nat) :=
  (descendantsFuel db fuel o).map (fun l => l.map (fun d => d.id))

/-- The `authors` backref on Organization (inverse of
`Author.organization`): all stored authors whose `organization_id`
equals this organization's id. -/
def authorsOf (db : DB) (o : Organization) : List Author :=
  db.authors.filter (fun a => a.organizationId = some o.id)

/-- `Organization.number_of_authors`: `len(self.authors)`. -/
def number_of_authors (db : DB) (o : Organization) : Nat :=
  (authorsOf db o).length

/-- One node of the value returned by `Organization.descendant_tree`:
the dict `{id, name, children, number_of_authors}` built per child. -/
inductive DescTree where
  | node (id : Nat) (name : String) (children : List DescTree)
      (numberOfAuthors : Nat)
  deriving Repr

/-- Sequence the per-child step of `Organization.descendant_tree` over
the children list. -/
def seqTrees (f : Organization → Option (List DescTree)) (g : Organization → Nat) :
    List Organization → Option (List DescTree)
  | [] => some []
  | c :: rest =>
    match f c, seqTrees f g rest with
    | some t, some r => some (DescTree.node c.id c.name t (g c) :: r)
    | _, _ => none

/-- `Organization.descendant_tree`, fuel-indexed: for each child the
dict of its id, name, recursive subtree and author count. -/
def descendant_treeFuel (db : DB) : Nat → Organization → Option (List DescTree)
  | 0, _ => none
  | fuel + 1, o =>
    seqTrees (descendant_treeFuel db fuel) (number_of_authors db) (childrenOf db o)

/-- `Author.organization_tree`: the empty string when the author has no
organization; otherwise the names of `[organization] ++ ancestors`,
reversed and joined with `" :: "`. -/
def organization_treeFuel (db : DB) (fuel : Nat) (a : Author) : Option String :=
  match organizationOf db a with
  | none => some ""
  | some o =>
    (ancestorsFuel db fuel o).map (fun ancestors =>
      String.intercalate " :: " ((o :: ancestors).reverse.map (fun x => x.name)))

/-- `Author.organization_ids`: the empty list when the author has no
organization; otherwise the ids of `[organization] ++ ancestors`,
reversed. -/
def organization_idsFuel (db : DB) (fuel : Nat) (a : Author) :
    Option (List Nat) :=
  match organizationOf db a with
  | none => some []
  | some o =>
    (ancestorsFuel db fuel o).map (fun ancestors =>
      (o :: ancestors).reverse.map (fun x => x.id))

/-- The `coauthors` relationship on Author: it joins through the
`coauthor` table with `primaryjoin id == coauthor.c.author_id` and
`secondaryjoin id == coauthor.c.coauthor_id`, so traversal from `a`
follows only edges where `a` occupies the `author_id` (source) column. -/
def coauthorsOf (db : DB) (a : Author) : List Author :=
  (db.coauthorEdges.filter (fun e => e.authorId = a.id)).filterMap
    (fun e => findAuthor db e.coauthorId)

/-- Insert one directed row into the `coauthor` join table. -/
def insertCoauthorEdge (db : DB) (src tgt : Nat) : DB :=
  { db with coauthorEdges := db.coauthorEdges ++ [⟨src, tgt⟩] }

/-- Delete an author row.  The `citations_per_year` relationship is
declared with `cascade="all, delete-orphan"`, so the same operation
removes every `author_citations_per_year` row keyed by that author. -/
def deleteAuthor (db : DB) (aId : Nat) : DB :=
  { db with
    authors := db.authors.filter (fun a => a.id ≠ aId)
    authorCitations := db.authorCitations.filter (fun r => r.authorId ≠ aId) }

/-- Delete a publication row.  The `citations_per_year` relationship is
declared with `cascade="all, delete-orphan"`, so the same operation
removes every `publication_citations_per_year` row keyed by that
publication. -/
def deletePublication (db : DB) (pId : Nat) : DB :=
  { db with
    publications := db.publications.filter (fun p => p.id ≠ pId)
    publicationCitations :=
      db.publicationCitations.filter (fun r => r.publicationId ≠ pId) }

/-- Insert an `author_citations_per_year` row ordered by year: the
`order_by="AuthorCitationsPerYear.year"` clause on the relationship
makes collection reads come back sorted ascending by `year`. -/
def insertByYear (r : AuthorCitationsPerYear) :
    List AuthorCitationsPerYear → List AuthorCitationsPerYear
  | [] => [r]
  | s :: rest => if r.year ≤ s.year then r :: s :: rest else s :: insertByYear r rest

/-- Sort `author_citations_per_year` rows ascending by year. -/
def sortByYear : List AuthorCitationsPerYear → List AuthorCitationsPerYear
  | [] => []
  | r :: rest => insertByYear r (sortByYear rest)

/-- Reading `Author.citations_per_year`: the author's rows, returned
ascending by year per the relationship's `order_by` clause. -/
def authorCitationsRead (db : DB) (aId : Nat) : List AuthorCitationsPerYear :=
  sortByYear (db.authorCitations.filter (fun r => r.authorId = aId))

/-- Reading `Publication.citations_per_year`: the publication's rows in
stored order — the relationship declares no `order_by` clause. -/
def publicationCitationsRead (db : DB) (pId : Nat) :
    List PublicationCitationsPerYear :=
  db.publicationCitations.filter (fun r => r.publicationId = pId)

/-- A column declaration as the module writes it: name and whether the
store accepts NULL in it. -/
structure ColumnSpec where
  name : String
  nullable : Bool
  deriving Repr, DecidableEq

/-- The columns of the `suggestions` table exactly as declared in the
module: `id` is the primary key (not nullable); every other column —
including `benchmark_id` — is declared without `nullable=False`, which
SQLAlchemy defaults to nullable. -/
def suggestionsColumns : List ColumnSpec :=
  [⟨"id", false⟩, ⟨"author_id", true⟩, ⟨"benchmark_id", true⟩,
   ⟨"scholar_website", true⟩, ⟨"rationale", true⟩, ⟨"created", true⟩]

/-- A row of the `suggestions` table: every non-key field nullable as
declared. -/
structure SuggestionRow where
  id : Nat
  authorId : Option Nat
  benchmarkId : Option Nat
  scholarWebsite : Option String
  rationale : Option String
  created : Option Int
  deriving Repr, DecidableEq

/-- Whether the declared `suggestions` schema accepts a row: the only
NOT NULL constraint in the declaration is the primary key, which the
row type already guarantees, so every row is accepted — in particular a
row with `benchmark_id = NULL`. -/
def suggestionAccepted (r : SuggestionRow) : Bool :=
  (suggestionsColumns.filter (fun c => !c.nullable)).all (fun c =>
    if c.name = "author_id" then r.authorId.isSome
    else if c.name = "benchmark_id" then r.benchmarkId.isSome
    else if c.name = "scholar_website" then r.scholarWebsite.isSome
    else if c.name = "rationale" then r.rationale.isSome
    else if c.name = "created" then r.created.isSome
    else true)

/-- All organization ids stored in the `organization` table are
pairwise distinct (its `id` column is the primary key). -/
def WellFormed (db : DB) : Prop :=
  (db.orgs.map (fun o => o.id)).Nodup

/-- All author ids stored in the `author` table are pairwise distinct
(its `id` column is the primary key). -/
def AuthorsWellFormed (db : DB) : Prop :=
  (db.authors.map (fun a => a.id)).Nodup

/-- Spec-side characterization of an organization's ancestor chain,
nearest-first: `[]` when the organization has no parent, otherwise its
parent followed by the parent's own chain, which therefore ends at a
forest root. -/
inductive IsAncestorChain (db : DB) : Organization → List Organization → Prop
  | nil {o : Organization} : parentOf db o = none → IsAncestorChain db o []
  | cons {o p : Organization} {rest : List Organization} :
      parentOf db o = some p → IsAncestorChain db p rest →
      IsAncestorChain db o (p :: rest)

/-- `ProperAncestor db o x` : `o` lies strictly above `x` on `x`'s
parent chain. -/
inductive ProperAncestor (db : DB) : Organization → Organization → Prop
  | parent {o x : Organization} :
      parentOf db x = some o → ProperAncestor db o x
  | step {o p x : Organization} :
      parentOf db x = some p → ProperAncestor db o p → ProperAncestor db o x

/-- `o` equals `x` or lies strictly above it. -/
def ReflAncestor (db : DB) (o x : Organization) : Prop :=
  o = x ∨ ProperAncestor db o x

/-- No stored organization is a proper ancestor of itself. -/
def Acyclic (db : DB) : Prop :=
  ∀ x ∈ db.orgs, ¬ ProperAncestor db x x

/-- Empty stored state used as a base for concrete examples. -/
def emptyDB : DB :=
  ⟨[], [], [], [], [], []⟩

/-- Example hierarchy: root `A` (id 1), its child `B` (id 2), `B`'s
child `C` (id 3); author `X` (id 10) belongs to `C`, author `Y`
(id 11) has no organization. -/
def orgA : Organization := ⟨1, "A", none, none, none, none, none⟩

/-- Child of `A` in the example hierarchy. -/
def orgB : Organization := ⟨2, "B", some 1, none, none, none, none⟩

/-- Child of `B` in the example hierarchy. -/
def orgC : Organization := ⟨3, "C", some 2, none, none, none, none⟩

/-- Example author affiliated with organization `C`. -/
def authorX : Author := ⟨10, "X", some 3, none, none, none, none, none, none⟩

/-- Example author with no organization. -/
def authorY : Author := ⟨11, "Y", none, none, none, none, none, none, none⟩

/-- Example stored state over the `A / B / C` hierarchy. -/
def exampleDB : DB :=
  ⟨[orgA, orgB, orgC], [authorX, authorY], [], [], [], []⟩

/-- A stored state whose single organization (id 1) is its own parent:
a cyclic parent assignment. -/
def cyclicDB : DB :=
  ⟨[⟨1, "Loop", some 1, none, none, none, none⟩],
   [⟨10, "X", some 1, none, none, none, none, none, none⟩], [], [], [], []⟩

/-- The self-parented organization of `cyclicDB`. -/
def cyclicOrg : Organization := ⟨1, "Loop", some 1, none, none, none, none⟩

/-- The author of `cyclicDB`, affiliated with the cyclic organization. -/
def cyclicAuthor : Author := ⟨10, "X", some 1, none, none, none, none, none, none⟩

/-- A stored state whose publication citation rows are recorded with
descending years. -/
def unsortedPubDB : DB :=
  ⟨[], [], [], [], [⟨7, none⟩], [⟨7, 2021, 5⟩, ⟨7, 2019, 3⟩]⟩

/-- Stored state for the citation-series example: author 10 has rows
for 2022, 2019 and 2021 recorded in that order. -/
def citationsDB : DB :=
  ⟨[], [authorX], [], [⟨10, 2022, 4⟩, ⟨10, 2019, 1⟩, ⟨10, 2021, 2⟩],
   [⟨7, none⟩], [⟨7, 2021, 5⟩, ⟨7, 2019, 3⟩]⟩

theorem findOrg_mem {db : DB} {i : Nat} {o : Organization}
    (h : findOrg db i = some o) : o ∈ db.orgs :=
  List.mem_of_find?_eq_some h

theorem findOrg_id {db : DB} {i : Nat} {o : Organization}
    (h : findOrg db i = some o) : o.id = i := by
  simpa using List.find?_some h

theorem find_id_self {l : List Organization}
    (wf : (l.map (fun o => o.id)).Nodup) {o : Organization} (ho : o ∈ l) :
    l.find? (fun x => x.id = o.id) = some o := by
  induction l with
  | nil => cases ho
  | cons a rest ih =>
    rcases List.mem_cons.mp ho with rfl | hmem
    · simp [List.find?_cons]
    · have hne : a.id ≠ o.id := by
        intro he
        have hm : o.id ∈ rest.map (fun x => x.id) :=
          List.mem_map_of_mem (fun x => x.id) hmem
        rw [← he] at hm
        exact (List.nodup_cons.mp wf).1 hm
      rw [List.find?_cons]
      simp only [hne, decide_eq_true_eq, if_neg]
      simpa [hne] using ih (List.nodup_cons.mp wf).2 hmem

theorem findOrg_self {db : DB} (wf : WellFormed db) {o : Organization}
    (ho : o ∈ db.orgs) : findOrg db o.id = some o :=
  find_id_self wf ho

theorem parentOf_mem {db : DB} {o p : Organization}
    (h : parentOf db o = some p) : p ∈ db.orgs := by
  unfold parentOf at h
  cases hid : o.parentId with
  | none => rw [hid] at h; cases h
  | some i => rw [hid] at h; exact findOrg_mem h

theorem mem_childrenOf {db : DB} {c o : Organization} :
    c ∈ childrenOf db o ↔ c ∈ db.orgs ∧ c.parentId = some o.id := by
  simp [childrenOf, List.mem_filter]

theorem parentOf_of_child {db : DB} (wf : WellFormed db) {o c : Organization}
    (ho : o ∈ db.orgs) (hc : c ∈ childrenOf db o) : parentOf db c = some o := by
  obtain ⟨-, hp⟩ := mem_childrenOf.mp hc
  unfold parentOf
  rw [hp]
  exact findOrg_self wf ho

theorem ancestorsFuel_of_chain {db : DB} {o : Organization}
    {l : List Organization} (h : IsAncestorChain db o l) :
    ∀ {fuel : Nat}, l.length < fuel → ancestorsFuel db fuel o = some l := by
  induction h with
  | nil hp =>
    intro fuel hf
    match fuel, hf with
    | fuel + 1, _ => simp [ancestorsFuel, hp]
  | cons hp _ ih =>
    intro fuel hf
    match fuel, hf with
    | fuel + 1, hf =>
      have : _ < fuel := Nat.lt_of_succ_lt_succ (by simpa using hf)
      simp [ancestorsFuel, hp, ih this]

theorem chain_of_ancestorsFuel {db : DB} :
    ∀ {fuel : Nat} {o : Organization} {l : List Organization},
      ancestorsFuel db fuel o = some l → IsAncestorChain db o l := by
  intro fuel
  induction fuel with
  | zero => intro o l h; simp [ancestorsFuel] at h
  | succ n ih =>
    intro o l h
    cases hp : parentOf db o with
    | none =>
      simp [ancestorsFuel, hp] at h
      exact h ▸ IsAncestorChain.nil hp
    | some p =>
      simp [ancestorsFuel, hp] at h
      obtain ⟨l', hl', rfl⟩ := h
      exact IsAncestorChain.cons hp (ih hl')

/-- C2: on an acyclic parent chain `l` (nearest-first, ending at the
forest root), `ancestors()` returns exactly `l` — empty precisely when
the organization has no parent — and `ancestor_tree()` is the names of
`reversed(ancestors())` joined with `" :: "` when the chain is
non-empty, and the absent value for a root organization. -/
theorem c2_ancestors_and_tree (db : DB) (o : Organization) (fuel : Nat)
    (l : List Organization) (hch : IsAncestorChain db o l)
    (hf : l.length < fuel) :
    ancestorsFuel db fuel o = some l
    ∧ (parentOf db o = none ↔ l = [])
    ∧ (l = [] → ancestor_treeFuel db fuel o = some none)
    ∧ (l ≠ [] → ancestor_treeFuel db fuel o =
        some (some (String.intercalate " :: "
          (l.reverse.map (fun a => a.name))))) := by
  have h : ancestorsFuel db fuel o = some l := ancestorsFuel_of_chain hch hf
  refine ⟨h, ?_, ?_, ?_⟩
  · constructor
    · intro hp
      cases hch with
      | nil _ => rfl
      | cons hq _ => rw [hp] at hq; cases hq
    · intro hl
      subst hl
      cases hch with
      | nil hq => exact hq
  · intro hl
    subst hl
    simp [ancestor_treeFuel, h]
  · intro hl
    simp [ancestor_treeFuel, h, List.isEmpty_iff, hl]

/-- C2 witness: in the `A / B / C` example, `C`'s ancestors are
`[B, A]` and its ancestor tree renders root-first as `"A :: B"`. -/
theorem c2_witness :
    ancestorsFuel exampleDB 5 orgC = some [orgB, orgA]
    ∧ ancestor_treeFuel exampleDB 5 orgC = some (some "A :: B") := by
  have h := c2_ancestors_and_tree exampleDB orgC 5 [orgB, orgA]
    (IsAncestorChain.cons rfl (IsAncestorChain.cons rfl
      (IsAncestorChain.nil rfl)))
    (by decide)
  exact ⟨h.1, (h.2.2.2 (by decide)).trans rfl⟩

/-- C1: `organization_tree()` is the empty string for an author with no
organization, and otherwise renders the author's organization chain
root-first, ending with the author's own organization's name, joined
with `" :: "`. -/
theorem c1_organization_tree (db : DB) (a : Author) (fuel : Nat) :
    (organizationOf db a = none → organization_treeFuel db fuel a = some "")
    ∧ (∀ (o : Organization) (chain : List Organization),
        organizationOf db a = some o → IsAncestorChain db o chain →
        chain.length < fuel →
        organization_treeFuel db fuel a =
          some (String.intercalate " :: "
            ((chain.reverse ++ [o]).map (fun x => x.name)))) := by
  constructor
  · intro h
    simp [organization_treeFuel, h]
  · intro o chain ho hch hlen
    simp [organization_treeFuel, ho, ancestorsFuel_of_chain hch hlen]

/-- C1 witness: author `X` belongs to `C` below `B` below root `A`, and
`organization_tree(X) = "A :: B :: C"`; author `Y` has no organization
and `organization_tree(Y) = ""`. -/
theorem c1_witness :
    organization_treeFuel exampleDB 5 authorX = some "A :: B :: C"
    ∧ organization_treeFuel exampleDB 5 authorY = some "" := by
  constructor
  · have h := (c1_organization_tree exampleDB authorX 5).2 orgC [orgB, orgA]
      rfl
      (IsAncestorChain.cons rfl (IsAncestorChain.cons rfl
        (IsAncestorChain.nil rfl)))
      (by decide)
    exact h.trans rfl
  · exact (c1_organization_tree exampleDB authorY 5).1 rfl

/-- C10: for a root organization `ancestor_tree()` yields the absent
value (Python `None`), never a string, while `organization_tree()` for
an author with no organization yields the empty string — two different
"empty" results. -/
theorem c10_empty_results_differ (db : DB) (o : Organization) (a : Author)
    (fuel : Nat) (ho : parentOf db o = none)
    (ha : organizationOf db a = none) :
    ancestor_treeFuel db (fuel + 1) o = some none
    ∧ organization_treeFuel db fuel a = some ""
    ∧ ∀ s : String, ancestor_treeFuel db (fuel + 1) o ≠ some (some s) := by
  have h1 : ancestorsFuel db (fuel + 1) o = some [] := by
    simp [ancestorsFuel, ho]
  refine ⟨?_, ?_, ?_⟩
  · simp [ancestor_treeFuel, h1]
  · simp [organization_treeFuel, ha]
  · intro s
    simp [ancestor_treeFuel, h1]

/-- C10 witness: root `A` has an absent ancestor tree (not the empty
string), author `Y` has the empty-string organization tree. -/
theorem c10_witness :
    ancestor_treeFuel exampleDB 3 orgA = some none
    ∧ organization_treeFuel exampleDB 2 authorY = some ""
    ∧ ancestor_treeFuel exampleDB 3 orgA ≠ some (some "") := by
  have h := c10_empty_results_differ exampleDB orgA authorY 2 rfl rfl
  exact ⟨h.1, h.2.1, h.2.2 ""⟩

theorem seqChildren_cons_eq_some {f : Organization → Option (List Organization)}
    {a : Organization} {rest : List Organization} {ds : List Organization} :
    seqChildren f (a :: rest) = some ds ↔
      ∃ d r, f a = some d ∧ seqChildren f rest = some r ∧
        ds = a :: (d ++ r) := by
  cases hfa : f a with
  | none => simp [seqChildren, hfa]
  | some d =>
    cases hrest : seqChildren f rest with
    | none => simp [seqChildren, hfa, hrest]
    | some r =>
      simp only [seqChildren, hfa, hrest]
      constructor
      · intro h
        exact ⟨d, r, rfl, rfl, (Option.some_injective _ h).symm⟩
      · rintro ⟨d', r', hd', hr', rfl⟩
        cases hd'
        cases hr'
        rfl

theorem seqChildren_eq_flatMap {f : Organization → Option (List Organization)}
    {cs ds : List Organization} (h : seqChildren f cs = some ds) :
    ds = cs.flatMap (fun c => c :: (f c).getD []) := by
  induction cs generalizing ds with
  | nil =>
    simp only [seqChildren, Option.some.injEq] at h
    subst h
    rfl
  | cons a rest ih =>
    obtain ⟨d, r, hfa, hrest, rfl⟩ := seqChildren_cons_eq_some.mp h
    simp [List.flatMap_cons, hfa, ih hrest]

theorem seqChildren_some_of_mem {f : Organization → Option (List Organization)}
    {cs ds : List Organization} (h : seqChildren f cs = some ds)
    {c : Organization} (hc : c ∈ cs) : ∃ d, f c = some d := by
  induction cs generalizing ds with
  | nil => cases hc
  | cons a rest ih =>
    obtain ⟨d, r, hfa, hrest, rfl⟩ := seqChildren_cons_eq_some.mp h
    rcases List.mem_cons.mp hc with rfl | hmem
    · exact ⟨d, hfa⟩
    · exact ih hrest hmem

theorem seqChildren_of_forall_some {f : Organization → Option (List Organization)}
    {cs : List Organization} (h : ∀ c ∈ cs, ∃ d, f c = some d) :
    ∃ ds, seqChildren f cs = some ds := by
  induction cs with
  | nil => exact ⟨[], rfl⟩
  | cons a rest ih =>
    obtain ⟨d, hd⟩ := h a (List.mem_cons_self ..)
    obtain ⟨r, hr⟩ := ih (fun c hc => h c (List.mem_cons_of_mem _ hc))
    exact ⟨a :: (d ++ r), seqChildren_cons_eq_some.mpr ⟨d, r, hd, hr, rfl⟩⟩

theorem seqChildren_mem {f : Organization → Option (List Organization)}
    {cs ds : List Organization} (h : seqChildren f cs = some ds)
    {x : Organization} (hx : x ∈ ds) :
    x ∈ cs ∨ ∃ c ∈ cs, ∃ d, f c = some d ∧ x ∈ d := by
  rw [seqChildren_eq_flatMap h] at hx
  obtain ⟨c, hc, hxc⟩ := List.mem_flatMap.mp hx
  rcases List.mem_cons.mp hxc with rfl | hxd
  · exact Or.inl hc
  · obtain ⟨d, hd⟩ := seqChildren_some_of_mem h hc
    rw [hd] at hxd
    exact Or.inr ⟨c, hc, d, hd, hxd⟩

theorem seqChildren_child_mem {f : Organization → Option (List Organization)}
    {cs ds : List Organization} (h : seqChildren f cs = some ds)
    {c : Organization} (hc : c ∈ cs) : c ∈ ds := by
  rw [seqChildren_eq_flatMap h]
  exact List.mem_flatMap.mpr ⟨c, hc, List.mem_cons_self ..⟩

theorem seqChildren_sub_mem {f : Organization → Option (List Organization)}
    {cs ds : List Organization} (h : seqChildren f cs = some ds)
    {c : Organization} (hc : c ∈ cs) {d : List Organization}
    (hd : f c = some d) {y : Organization} (hy : y ∈ d) : y ∈ ds := by
  rw [seqChildren_eq_flatMap h]
  refine List.mem_flatMap.mpr ⟨c, hc, List.mem_cons_of_mem _ ?_⟩
  rw [hd]
  exact hy

theorem descendants_mem_orgs {db : DB} :
    ∀ {fuel : Nat} {o : Organization} {ds : List Organization},
      descendantsFuel db fuel o = some ds → ∀ x ∈ ds, x ∈ db.orgs := by
  intro fuel
  induction fuel with
  | zero => intro o ds h; simp [descendantsFuel] at h
  | succ n ih =>
    intro o ds h x hx
    rcases seqChildren_mem h hx with hc | ⟨c, _, d, hd, hxd⟩
    · exact (mem_childrenOf.mp hc).1
    · exact ih hd x hxd

theorem descendants_sub {db : DB} :
    ∀ {fuel : Nat} {o : Organization} {ds : List Organization},
      descendantsFuel db fuel o = some ds → ∀ x ∈ ds,
        ∃ m, m < fuel ∧ ∃ dx, descendantsFuel db m x = some dx ∧
          ∀ y ∈ dx, y ∈ ds := by
  intro fuel
  induction fuel with
  | zero => intro o ds h; simp [descendantsFuel] at h
  | succ n ih =>
    intro o ds h x hx
    rcases seqChildren_mem h hx with hc | ⟨c, hc, d, hd, hxd⟩
    · obtain ⟨dx, hdx⟩ := seqChildren_some_of_mem h hc
      exact ⟨n, Nat.lt_succ_self n, dx, hdx,
        fun y hy => seqChildren_sub_mem h hc hdx hy⟩
    · obtain ⟨m, hm, dx, hdx, hsub⟩ := ih hd x hxd
      exact ⟨m, Nat.lt_succ_of_lt hm, dx, hdx,
        fun y hy => seqChildren_sub_mem h hc hd (hsub y hy)⟩

theorem pa_inv {db : DB} {o x : Organization} (h : ProperAncestor db o x) :
    ∃ p, parentOf db x = some p ∧ ReflAncestor db o p := by
  cases h with
  | parent hp => exact ⟨o, hp, Or.inl rfl⟩
  | step hp hpa => exact ⟨_, hp, Or.inr hpa⟩

theorem pa_trans {db : DB} {a b c : Organization}
    (h1 : ProperAncestor db a b) (h2 : ProperAncestor db b c) :
    ProperAncestor db a c := by
  induction h2 with
  | parent hp => exact ProperAncestor.step hp h1
  | step hp _ ih => exact ProperAncestor.step hp ih

theorem pa_linear {db : DB} {a x : Organization}
    (h1 : ProperAncestor db a x) :
    ∀ {b : Organization}, ReflAncestor db b x →
      ReflAncestor db a b ∨ ReflAncestor db b a := by
  induction h1 with
  | parent hp =>
    intro b hb
    rcases hb with rfl | hbx
    · exact Or.inl (Or.inr (ProperAncestor.parent hp))
    · obtain ⟨p, hp2, hrb⟩ := pa_inv hbx
      rw [hp] at hp2
      cases hp2
      exact Or.inr hrb
  | step hp hpa ih =>
    intro b hb
    rcases hb with rfl | hbx
    · exact Or.inl (Or.inr (ProperAncestor.step hp hpa))
    · obtain ⟨q, hq, hrb⟩ := pa_inv hbx
      rw [hp] at hq
      cases hq
      rcases hrb with rfl | hbp
      · exact Or.inl (Or.inr hpa)
      · exact ih (Or.inr hbp)

theorem refl_linear {db : DB} {a b x : Organization}
    (h1 : ReflAncestor db a x) (h2 : ReflAncestor db b x) :
    ReflAncestor db a b ∨ ReflAncestor db b a := by
  rcases h1 with rfl | hax
  · exact Or.inr h2
  · exact pa_linear hax h2

theorem mem_childrenOf_of_parentOf {db : DB} {x q : Organization}
    (h : parentOf db x = some q) (hx : x ∈ db.orgs) :
    x ∈ childrenOf db q := by
  refine mem_childrenOf.mpr ⟨hx, ?_⟩
  unfold parentOf at h
  cases hid : x.parentId with
  | none => rw [hid] at h; cases h
  | some j =>
    rw [hid] at h
    rw [findOrg_id h]

theorem descendants_pa {db : DB} (wf : WellFormed db) :
    ∀ {fuel : Nat} {o : Organization} {ds : List Organization},
      o ∈ db.orgs → descendantsFuel db fuel o = some ds →
        ∀ x ∈ ds, ProperAncestor db o x := by
  intro fuel
  induction fuel with
  | zero => intro o ds _ h; simp [descendantsFuel] at h
  | succ n ih =>
    intro o ds ho h x hx
    rcases seqChildren_mem h hx with hc | ⟨c, hc, d, hd, hxd⟩
    · exact ProperAncestor.parent (parentOf_of_child wf ho hc)
    · have hco : ProperAncestor db o c :=
        ProperAncestor.parent (parentOf_of_child wf ho hc)
      exact pa_trans hco (ih (mem_childrenOf.mp hc).1 hd x hxd)

theorem descendants_child_mem {db : DB} {fuel : Nat} {q : Organization}
    {dq : List Organization} (h : descendantsFuel db fuel q = some dq)
    {c : Organization} (hc : c ∈ childrenOf db q) : c ∈ dq := by
  cases fuel with
  | zero => simp [descendantsFuel] at h
  | succ n => exact seqChildren_child_mem h hc

theorem pa_mem_descendants {db : DB} {fuel : Nat} {o : Organization}
    {ds : List Organization} (h : descendantsFuel db fuel o = some ds)
    {x : Organization} (hx : ProperAncestor db o x) (hxm : x ∈ db.orgs) :
    x ∈ ds := by
  induction hx with
  | parent hp => exact descendants_child_mem h (mem_childrenOf_of_parentOf hp hxm)
  | step hp hpa ih =>
    have hpm : _ ∈ db.orgs := parentOf_mem hp
    have hpd := ih hpm
    obtain ⟨m, _, dp, hdp, hsub⟩ := descendants_sub h _ hpd
    exact hsub _ (descendants_child_mem hdp (mem_childrenOf_of_parentOf hp hxm))

theorem descendants_not_pa_self {db : DB} :
    ∀ fuel : Nat, ∀ {x : Organization} {ds : List Organization},
      x ∈ db.orgs → descendantsFuel db fuel x = some ds →
      ¬ ProperAncestor db x x := by
  intro fuel
  induction fuel using Nat.strong_induction_on with
  | _ fuel ih =>
    intro x ds hx h hpa
    obtain ⟨m, hm, dx, hdx, -⟩ := descendants_sub h x (pa_mem_descendants h hpa hx)
    exact ih m hm hx hdx hpa

theorem sibling_not_refl {db : DB} (wf : WellFormed db) {o c1 c2 : Organization}
    {n : Nat} {dc1 : List Organization} (ho : o ∈ db.orgs)
    (h1 : c1 ∈ childrenOf db o) (h2 : c2 ∈ childrenOf db o) (hne : c1 ≠ c2)
    (hd : descendantsFuel db n c1 = some dc1) :
    ¬ ReflAncestor db c1 c2 := by
  intro hr
  have hm1 : c1 ∈ db.orgs := (mem_childrenOf.mp h1).1
  have hself : ¬ ProperAncestor db c1 c1 :=
    descendants_not_pa_self n hm1 hd
  rcases hr with rfl | hpa
  · exact hne rfl
  · obtain ⟨p, hp, hrp⟩ := pa_inv hpa
    rw [parentOf_of_child wf ho h2] at hp
    cases hp
    rcases hrp with rfl | hc1o
    · exact hself (ProperAncestor.parent (parentOf_of_child wf ho h1))
    · exact hself
        (pa_trans hc1o (ProperAncestor.parent (parentOf_of_child wf ho h1)))

theorem descendants_nodup {db : DB} (wf : WellFormed db) :
    ∀ {fuel : Nat} {o : Organization} {ds : List Organization},
      o ∈ db.orgs → descendantsFuel db fuel o = some ds →
      (ds.map (fun d => d.id)).Nodup := by
  intro fuel
  induction fuel with
  | zero => intro o ds _ h; simp [descendantsFuel] at h
  | succ n ih =>
    intro o ds ho h
    have hds := seqChildren_eq_flatMap h
    subst hds
    rw [List.map_flatMap]
    refine List.nodup_flatMap.mpr ⟨?_, ?_⟩
    · intro c hc
      obtain ⟨dc, hdc⟩ := seqChildren_some_of_mem h hc
      rw [hdc]
      have hcm : c ∈ db.orgs := (mem_childrenOf.mp hc).1
      refine List.nodup_cons.mpr ⟨?_, ih hcm hdc⟩
      intro hmem
      obtain ⟨d, hd, hid⟩ := List.mem_map.mp hmem
      have hdm : d ∈ db.orgs := descendants_mem_orgs hdc d hd
      have : d = c := List.inj_on_of_nodup_map wf hdm hcm hid
      subst this
      exact descendants_not_pa_self n hcm hdc (descendants_pa wf hcm hdc d hd)
    · have hwf : (db.orgs.map (fun x => x.id)).Nodup := wf
      have hcs : (childrenOf db o).Nodup :=
        List.Nodup.filter _ (hwf.of_map _)
      refine List.Pairwise.imp_of_mem ?_ hcs
      intro c1 c2 hc1 hc2 hne i hi1 hi2
      obtain ⟨dc1, hdc1⟩ := seqChildren_some_of_mem h hc1
      obtain ⟨dc2, hdc2⟩ := seqChildren_some_of_mem h hc2
      simp only [hdc1, Option.getD_some, List.map_cons, List.mem_cons,
        List.mem_map] at hi1
      simp only [hdc2, Option.getD_some, List.map_cons, List.mem_cons,
        List.mem_map] at hi2
      have hx1 : ∃ d1, (d1 = c1 ∨ d1 ∈ dc1) ∧ d1.id = i := by
        rcases hi1 with hh | ⟨d, hd, hid⟩
        · exact ⟨c1, Or.inl rfl, hh.symm⟩
        · exact ⟨d, Or.inr hd, hid⟩
      have hx2 : ∃ d2, (d2 = c2 ∨ d2 ∈ dc2) ∧ d2.id = i := by
        rcases hi2 with hh | ⟨d, hd, hid⟩
        · exact ⟨c2, Or.inl rfl, hh.symm⟩
        · exact ⟨d, Or.inr hd, hid⟩
      obtain ⟨d1, hd1, hid1⟩ := hx1
      obtain ⟨d2, hd2, hid2⟩ := hx2
      have hm1 : c1 ∈ db.orgs := (mem_childrenOf.mp hc1).1
      have hm2 : c2 ∈ db.orgs := (mem_childrenOf.mp hc2).1
      have hd1m : d1 ∈ db.orgs := by
        rcases hd1 with rfl | hd1
        · exact hm1
        · exact descendants_mem_orgs hdc1 d1 hd1
      have hd2m : d2 ∈ db.orgs := by
        rcases hd2 with rfl | hd2
        · exact hm2
        · exact descendants_mem_orgs hdc2 d2 hd2
      have heq : d1 = d2 :=
        List.inj_on_of_nodup_map wf hd1m hd2m (hid1.trans hid2.symm)
      subst heq
      have hr1 : ReflAncestor db c1 d1 := by
        rcases hd1 with rfl | hd1
        · exact Or.inl rfl
        · exact Or.inr (descendants_pa wf hm1 hdc1 d1 hd1)
      have hr2 : ReflAncestor db c2 d1 := by
        rcases hd2 with rfl | hd2
        · exact Or.inl rfl
        · exact Or.inr (descendants_pa wf hm2 hdc2 d1 hd2)
      rcases refl_linear hr1 hr2 with hlin | hlin
      · exact sibling_not_refl wf ho hc1 hc2 hne hdc1 hlin
      · exact sibling_not_refl wf ho hc2 hc1 (Ne.symm hne) hdc2 hlin

/-- C3: whenever `descendants()` terminates it is the depth-first
pre-order enumeration over the `children` relation (each child followed
by its own subtree, in child order), `descendant_ids()` maps it to ids
in the same order, the ids are duplicate-free, and they are exactly the
ids of stored organizations having this organization as a proper
ancestor. -/
theorem c3_descendants (db : DB) (o : Organization) (fuel : Nat)
    (ds : List Organization) (wf : WellFormed db) (ho : o ∈ db.orgs)
    (h : descendantsFuel db fuel o = some ds) :
    descendant_idsFuel db fuel o = some (ds.map (fun d => d.id))
    ∧ ds = (childrenOf db o).flatMap
        (fun c => c :: (descendantsFuel db (fuel - 1) c).getD [])
    ∧ (∀ c ∈ childrenOf db o, ∃ dc, descendantsFuel db (fuel - 1) c = some dc)
    ∧ (ds.map (fun d => d.id)).Nodup
    ∧ (∀ x ∈ db.orgs,
        (x.id ∈ ds.map (fun d => d.id) ↔ ProperAncestor db o x)) := by
  cases fuel with
  | zero => simp [descendantsFuel] at h
  | succ n =>
    refine ⟨by simp [descendant_idsFuel, h], seqChildren_eq_flatMap h,
      fun c hc => seqChildren_some_of_mem h hc,
      descendants_nodup wf ho h, ?_⟩
    intro x hxm
    constructor
    · intro hid
      obtain ⟨d, hd, hdid⟩ := List.mem_map.mp hid
      have hdm : d ∈ db.orgs := descendants_mem_orgs h d hd
      have : d = x := List.inj_on_of_nodup_map wf hdm hxm hdid
      subst this
      exact descendants_pa wf ho h d hd
    · intro hpa
      exact List.mem_map_of_mem (fun d => d.id) (pa_mem_descendants h hpa hxm)

/-- C3 witness: in the `A / B / C` example, `descendant_ids(A) = [2, 3]`
and `C` has `A` as a proper ancestor. -/
theorem c3_witness :
    descendant_idsFuel exampleDB 4 orgA = some [2, 3]
    ∧ ProperAncestor exampleDB orgA orgC := by
  have h := c3_descendants exampleDB orgA 4 [orgB, orgC] (by unfold WellFormed; decide)
    (by decide) rfl
  exact ⟨h.1.trans rfl, (h.2.2.2.2 orgC (by decide)).mp (by decide)⟩

/-- C4: `number_of_authors()` counts exactly the author rows whose
`organization_id` equals this organization's id, and an author whose
organization is a proper descendant is never counted. -/
theorem c4_number_of_authors (db : DB) (o : Organization) (fuel : Nat)
    (ds : List Organization) (wf : WellFormed db) (ho : o ∈ db.orgs)
    (h : descendantsFuel db fuel o = some ds) :
    number_of_authors db o =
      (db.authors.filter (fun a => a.organizationId = some o.id)).length
    ∧ ∀ d ∈ ds, ∀ a : Author, a.organizationId = some d.id →
        a ∉ authorsOf db o := by
  refine ⟨rfl, ?_⟩
  intro d hd a ha hmem
  have h1 : a.organizationId = some o.id := by
    have := (List.mem_filter.mp hmem).2
    simpa using this
  rw [ha] at h1
  have hdo : d.id = o.id := by injection h1
  have hdm : d ∈ db.orgs := descendants_mem_orgs h d hd
  have : d = o := List.inj_on_of_nodup_map wf hdm ho hdo
  subst this
  exact descendants_not_pa_self fuel ho h (descendants_pa wf ho h d hd)

/-- C4 witness: in the example, `A` has no direct authors, and author
`X` (affiliated with descendant `C`) is not in `A`'s author set. -/
theorem c4_witness :
    number_of_authors exampleDB orgA =
      (exampleDB.authors.filter
        (fun a => a.organizationId = some orgA.id)).length
    ∧ authorX ∉ authorsOf exampleDB orgA := by
  have h := c4_number_of_authors exampleDB orgA 4 [orgB, orgC] (by unfold WellFormed; decide)
    (by decide) rfl
  exact ⟨h.1, h.2 orgC (by decide) authorX rfl⟩

/-- C5: deleting an author (or publication) removes, in the same
operation, every per-year citation row keyed by it and nothing else: the
surviving per-year rows are exactly the stored rows of other parents,
and the other series table is untouched. -/
theorem c5_cascade_delete (db : DB) (aId pId : Nat) :
    (∀ r ∈ (deleteAuthor db aId).authorCitations, r.authorId ≠ aId)
    ∧ (∀ a ∈ (deleteAuthor db aId).authors, a.id ≠ aId)
    ∧ (∀ r, r ∈ (deleteAuthor db aId).authorCitations ↔
        r ∈ db.authorCitations ∧ r.authorId ≠ aId)
    ∧ (deleteAuthor db aId).publicationCitations = db.publicationCitations
    ∧ (∀ r ∈ (deletePublication db pId).publicationCitations,
        r.publicationId ≠ pId)
    ∧ (∀ p ∈ (deletePublication db pId).publications, p.id ≠ pId)
    ∧ (∀ r, r ∈ (deletePublication db pId).publicationCitations ↔
        r ∈ db.publicationCitations ∧ r.publicationId ≠ pId)
    ∧ (deletePublication db pId).authorCitations = db.authorCitations := by
  refine ⟨?_, ?_, ?_, rfl, ?_, ?_, ?_, rfl⟩ <;>
    simp [deleteAuthor, deletePublication, List.mem_filter]

/-- C5 witness: deleting an absent author id keeps an unrelated per-year
row, and deleting author 10 is checked on the stored example state. -/
theorem c5_witness :
    (⟨10, 2022, 4⟩ : AuthorCitationsPerYear) ∈
      (deleteAuthor citationsDB 99).authorCitations
    ∧ ((⟨10, 2022, 4⟩ : AuthorCitationsPerYear) ∈
        (deleteAuthor citationsDB 10).authorCitations → False) := by
  constructor
  · exact ((c5_cascade_delete citationsDB 99 7).2.2.1 _).mpr
      ⟨by decide, by decide⟩
  · intro hmem
    exact (c5_cascade_delete citationsDB 10 7).1 _ hmem rfl

theorem find_author_id_self {l : List Author}
    (wfa : (l.map (fun a => a.id)).Nodup) {a : Author} (ha : a ∈ l) :
    l.find? (fun x => x.id = a.id) = some a := by
  induction l with
  | nil => cases ha
  | cons b rest ih =>
    rcases List.mem_cons.mp ha with rfl | hmem
    · simp [List.find?_cons]
    · have hne : b.id ≠ a.id := by
        intro he
        have hm : a.id ∈ rest.map (fun x => x.id) :=
          List.mem_map_of_mem (fun x => x.id) hmem
        rw [← he] at hm
        exact (List.nodup_cons.mp wfa).1 hm
      rw [List.find?_cons]
      simp only [hne, decide_eq_true_eq, if_neg]
      simpa [hne] using ih (List.nodup_cons.mp wfa).2 hmem

theorem findAuthor_self {db : DB} (wfa : AuthorsWellFormed db) {a : Author}
    (ha : a ∈ db.authors) : findAuthor db a.id = some a :=
  find_author_id_self wfa ha

/-- C6: inserting one directed `coauthor` edge from `x` to `y` makes
`y` appear in `x`'s coauthor collection while `y`'s collection is
unchanged; in any state, traversing `coauthors` on an author resolves
exactly the edges where that author occupies the `author_id` column. -/
theorem c6_coauthors_directed (db : DB) (x y : Author)
    (wfa : AuthorsWellFormed db) (hy : y ∈ db.authors)
    (hne : x.id ≠ y.id) :
    y ∈ coauthorsOf (insertCoauthorEdge db x.id y.id) x
    ∧ coauthorsOf (insertCoauthorEdge db x.id y.id) y = coauthorsOf db y
    ∧ (∀ (d : DB) (a z : Author),
        z ∈ coauthorsOf d a ↔ ∃ e ∈ d.coauthorEdges,
          e.authorId = a.id ∧ findAuthor d e.coauthorId = some z) := by
  have hchar : ∀ (d : DB) (a z : Author),
      z ∈ coauthorsOf d a ↔ ∃ e ∈ d.coauthorEdges,
        e.authorId = a.id ∧ findAuthor d e.coauthorId = some z := by
    intro d a z
    simp [coauthorsOf, List.mem_filterMap, List.mem_filter, and_assoc]
  refine ⟨?_, ?_, hchar⟩
  · refine (hchar _ x y).mpr ⟨⟨x.id, y.id⟩, ?_, rfl, ?_⟩
    · simp [insertCoauthorEdge]
    · exact findAuthor_self wfa hy
  · simp only [coauthorsOf, insertCoauthorEdge, List.filter_append]
    have hde : (List.filter (fun e => decide (e.authorId = y.id))
        [(⟨x.id, y.id⟩ : CoauthorEdge)]) = [] := by
      simp [hne]
    rw [hde, List.append_nil]
    rfl

/-- C6 witness: adding the edge 10 → 11 to the example state makes `Y`
a coauthor of `X` while `Y`'s coauthor list stays empty. -/
theorem c6_witness :
    authorY ∈ coauthorsOf (insertCoauthorEdge exampleDB 10 11) authorX
    ∧ coauthorsOf (insertCoauthorEdge exampleDB 10 11) authorY = [] := by
  have h := c6_coauthors_directed exampleDB authorX authorY
    (by unfold AuthorsWellFormed; decide) (by decide) (by decide)
  exact ⟨h.1, h.2.1.trans rfl⟩

/-- C8: counterexample to the claim that `benchmark_id` is declared
non-nullable — the `suggestions` declaration leaves `benchmark_id` at
the default (nullable), and the declared schema accepts a row whose
benchmark reference is NULL. -/
theorem c8_benchmark_id_nullable :
    suggestionsColumns.find? (fun c => c.name = "benchmark_id") =
      some ⟨"benchmark_id", true⟩
    ∧ suggestionAccepted ⟨1, none, none, none, none, none⟩ = true :=
  ⟨rfl, rfl⟩

theorem mem_insertByYear {r s : AuthorCitationsPerYear}
    {l : List AuthorCitationsPerYear} :
    s ∈ insertByYear r l ↔ s = r ∨ s ∈ l := by
  induction l with
  | nil => simp [insertByYear]
  | cons a rest ih =>
    by_cases h : r.year ≤ a.year
    · simp [insertByYear, h]
    · simp only [insertByYear, if_neg h, List.mem_cons, ih]
      tauto

theorem insertByYear_pairwise {r : AuthorCitationsPerYear}
    {l : List AuthorCitationsPerYear}
    (h : l.Pairwise (fun u v => u.year ≤ v.year)) :
    (insertByYear r l).Pairwise (fun u v => u.year ≤ v.year) := by
  induction l with
  | nil => simp [insertByYear]
  | cons a rest ih =>
    obtain ⟨ha, hrest⟩ := List.pairwise_cons.mp h
    by_cases hy : r.year ≤ a.year
    · rw [insertByYear, if_pos hy]
      refine List.pairwise_cons.mpr ⟨?_, h⟩
      intro s hs
      rcases List.mem_cons.mp hs with rfl | hsr
      · exact hy
      · exact le_trans hy (ha s hsr)
    · rw [insertByYear, if_neg hy]
      refine List.pairwise_cons.mpr ⟨?_, ih hrest⟩
      intro s hs
      rcases mem_insertByYear.mp hs with rfl | hsr
      · exact le_of_not_le hy
      · exact ha s hsr

theorem sortByYear_pairwise (l : List AuthorCitationsPerYear) :
    (sortByYear l).Pairwise (fun u v => u.year ≤ v.year) := by
  induction l with
  | nil => simp [sortByYear]
  | cons a rest ih => exact insertByYear_pairwise ih

theorem insertByYear_perm (r : AuthorCitationsPerYear)
    (l : List AuthorCitationsPerYear) :
    (insertByYear r l).Perm (r :: l) := by
  induction l with
  | nil => exact List.Perm.refl _
  | cons a rest ih =>
    by_cases hy : r.year ≤ a.year
    · rw [insertByYear, if_pos hy]
    · rw [insertByYear, if_neg hy]
      exact (ih.cons a).trans (List.Perm.swap r a rest)

theorem sortByYear_perm (l : List AuthorCitationsPerYear) :
    (sortByYear l).Perm l := by
  induction l with
  | nil => exact List.Perm.refl _
  | cons a rest ih => exact (insertByYear_perm a (sortByYear rest)).trans (ih.cons a)

/-- C9: an author's citation series reads back sorted ascending by year
(a permutation of the author's stored rows), while a publication's
series reads back in stored order with no reordering — in the example
state the publication read comes back `[2021, 2019]`, not
year-ordered. -/
theorem c9_citations_order :
    (∀ (db : DB) (aId : Nat),
      (authorCitationsRead db aId).Pairwise (fun u v => u.year ≤ v.year))
    ∧ (∀ (db : DB) (aId : Nat),
        (authorCitationsRead db aId).Perm
          (db.authorCitations.filter (fun r => r.authorId = aId)))
    ∧ (∀ (db : DB) (pId : Nat),
        publicationCitationsRead db pId =
          db.publicationCitations.filter (fun r => r.publicationId = pId))
    ∧ (publicationCitationsRead unsortedPubDB 7).map (fun r => r.year) =
        [2021, 2019] := by
  exact ⟨fun db aId => sortByYear_pairwise _,
    fun db aId => sortByYear_perm _,
    fun db pId => rfl,
    rfl⟩

/-- C9 witness: the example author's series reads back year-ordered. -/
theorem c9_witness :
    (authorCitationsRead citationsDB 10).Pairwise
      (fun u v => u.year ≤ v.year)
    ∧ authorCitationsRead citationsDB 10 =
        [⟨10, 2019, 1⟩, ⟨10, 2021, 2⟩, ⟨10, 2022, 4⟩] :=
  ⟨c9_citations_order.1 citationsDB 10, rfl⟩

theorem ancSet_card_le (db : DB) (o : Organization) :
    {x | x ∈ db.orgs ∧ ProperAncestor db x o}.ncard ≤ db.orgs.length := by
  have hsub : {x | x ∈ db.orgs ∧ ProperAncestor db x o} ⊆ {x | x ∈ db.orgs} :=
    fun x hx => hx.1
  have h1 : {x | x ∈ db.orgs ∧ ProperAncestor db x o}.ncard ≤
      {x | x ∈ db.orgs}.ncard :=
    Set.ncard_le_ncard hsub (List.finite_toSet db.orgs)
  have h2 : {x | x ∈ db.orgs}.ncard ≤ db.orgs.length := by
    rw [← List.coe_toFinset, Set.ncard_coe_Finset]
    exact db.orgs.toFinset_card_le
  exact le_trans h1 h2

theorem descSet_card_le (db : DB) (o : Organization) :
    {x | x ∈ db.orgs ∧ ProperAncestor db o x}.ncard ≤ db.orgs.length := by
  have hsub : {x | x ∈ db.orgs ∧ ProperAncestor db o x} ⊆ {x | x ∈ db.orgs} :=
    fun x hx => hx.1
  have h1 : {x | x ∈ db.orgs ∧ ProperAncestor db o x}.ncard ≤
      {x | x ∈ db.orgs}.ncard :=
    Set.ncard_le_ncard hsub (List.finite_toSet db.orgs)
  have h2 : {x | x ∈ db.orgs}.ncard ≤ db.orgs.length := by
    rw [← List.coe_toFinset, Set.ncard_coe_Finset]
    exact db.orgs.toFinset_card_le
  exact le_trans h1 h2

theorem anc_terminates (db : DB) (hacyc : Acyclic db) :
    ∀ fuel : Nat, ∀ o : Organization,
      {x | x ∈ db.orgs ∧ ProperAncestor db x o}.ncard < fuel →
      ∃ l, ancestorsFuel db fuel o = some l := by
  intro fuel
  induction fuel with
  | zero => intro o h; cases Nat.not_lt_zero _ h
  | succ n ih =>
    intro o hlt
    cases hp : parentOf db o with
    | none => exact ⟨[], by simp [ancestorsFuel, hp]⟩
    | some p =>
      have hpm : p ∈ db.orgs := parentOf_mem hp
      have hpo : ProperAncestor db p o := ProperAncestor.parent hp
      have hsub : {x | x ∈ db.orgs ∧ ProperAncestor db x p} ⊆
          {x | x ∈ db.orgs ∧ ProperAncestor db x o} :=
        fun x hx => ⟨hx.1, pa_trans hx.2 hpo⟩
      have hss : {x | x ∈ db.orgs ∧ ProperAncestor db x p} ⊂
          {x | x ∈ db.orgs ∧ ProperAncestor db x o} := by
        refine (Set.ssubset_iff_of_subset hsub).mpr ⟨p, ⟨hpm, hpo⟩, ?_⟩
        intro hpp
        exact hacyc p hpm hpp.2
      have hfin : {x | x ∈ db.orgs ∧ ProperAncestor db x o}.Finite :=
        (List.finite_toSet db.orgs).subset (fun x hx => hx.1)
      have hlt2 : {x | x ∈ db.orgs ∧ ProperAncestor db x p}.ncard < n :=
        lt_of_lt_of_le (Set.ncard_lt_ncard hss hfin) (Nat.lt_succ_iff.mp hlt)
      obtain ⟨l, hl⟩ := ih p hlt2
      exact ⟨p :: l, by simp [ancestorsFuel, hp, hl]⟩

theorem desc_terminates (db : DB) (wf : WellFormed db) (hacyc : Acyclic db) :
    ∀ fuel : Nat, ∀ o ∈ db.orgs,
      {x | x ∈ db.orgs ∧ ProperAncestor db o x}.ncard < fuel →
      ∃ ds, descendantsFuel db fuel o = some ds := by
  intro fuel
  induction fuel with
  | zero => intro o _ h; cases Nat.not_lt_zero _ h
  | succ n ih =>
    intro o ho hlt
    have hall : ∀ c ∈ childrenOf db o, ∃ d, descendantsFuel db n c = some d := by
      intro c hc
      have hcm : c ∈ db.orgs := (mem_childrenOf.mp hc).1
      have hoc : ProperAncestor db o c :=
        ProperAncestor.parent (parentOf_of_child wf ho hc)
      have hsub : {x | x ∈ db.orgs ∧ ProperAncestor db c x} ⊆
          {x | x ∈ db.orgs ∧ ProperAncestor db o x} :=
        fun x hx => ⟨hx.1, pa_trans hoc hx.2⟩
      have hss : {x | x ∈ db.orgs ∧ ProperAncestor db c x} ⊂
          {x | x ∈ db.orgs ∧ ProperAncestor db o x} := by
        refine (Set.ssubset_iff_of_subset hsub).mpr ⟨c, ⟨hcm, hoc⟩, ?_⟩
        intro hcc
        exact hacyc c hcm hcc.2
      have hfin : {x | x ∈ db.orgs ∧ ProperAncestor db o x}.Finite :=
        (List.finite_toSet db.orgs).subset (fun x hx => hx.1)
      have hlt2 : {x | x ∈ db.orgs ∧ ProperAncestor db c x}.ncard < n :=
        lt_of_lt_of_le (Set.ncard_lt_ncard hss hfin) (Nat.lt_succ_iff.mp hlt)
      exact ih c hcm hlt2
    obtain ⟨ds, hds⟩ := seqChildren_of_forall_some hall
    exact ⟨ds, hds⟩

theorem seqTrees_of_forall_some {f : Organization → Option (List DescTree)}
    {g : Organization → Nat} {cs : List Organization}
    (h : ∀ c ∈ cs, ∃ t, f c = some t) :
    ∃ ts, seqTrees f g cs = some ts := by
  induction cs with
  | nil => exact ⟨[], rfl⟩
  | cons a rest ih =>
    obtain ⟨t, ht⟩ := h a (List.mem_cons_self ..)
    obtain ⟨r, hr⟩ := ih (fun c hc => h c (List.mem_cons_of_mem _ hc))
    exact ⟨DescTree.node a.id a.name t (g a) :: r, by simp [seqTrees, ht, hr]⟩

theorem descTree_of_desc {db : DB} :
    ∀ {fuel : Nat} {o : Organization} {ds : List Organization},
      descendantsFuel db fuel o = some ds →
      ∃ ts, descendant_treeFuel db fuel o = some ts := by
  intro fuel
  induction fuel with
  | zero => intro o ds h; simp [descendantsFuel] at h
  | succ n ih =>
    intro o ds h
    have hall : ∀ c ∈ childrenOf db o,
        ∃ t, descendant_treeFuel db n c = some t := by
      intro c hc
      obtain ⟨d, hd⟩ := seqChildren_some_of_mem h hc
      exact ih hd
    obtain ⟨ts, hts⟩ := seqTrees_of_forall_some hall
    exact ⟨ts, hts⟩

theorem acyclic_of_desc_isSome {db : DB} {fuel : Nat}
    (h : ∀ x ∈ db.orgs, (descendantsFuel db fuel x).isSome = true) :
    Acyclic db := by
  intro x hx hpa
  obtain ⟨ds, hds⟩ := Option.isSome_iff_exists.mp (h x hx)
  exact descendants_not_pa_self fuel hx hds hpa

theorem cyclic_parent : parentOf cyclicDB cyclicOrg = some cyclicOrg := rfl

theorem cyclic_ancestors_none :
    ∀ fuel : Nat, ancestorsFuel cyclicDB fuel cyclicOrg = none := by
  intro fuel
  induction fuel with
  | zero => rfl
  | succ n ih => simp [ancestorsFuel, cyclic_parent, ih]

theorem cyclic_children : childrenOf cyclicDB cyclicOrg = [cyclicOrg] := rfl

theorem cyclic_descendants_none :
    ∀ fuel : Nat, descendantsFuel cyclicDB fuel cyclicOrg = none := by
  intro fuel
  induction fuel with
  | zero => rfl
  | succ n ih =>
    have ih2 : descendantsFuel cyclicDB n
        ⟨1, "Loop", some 1, none, none, none, none⟩ = none := ih
    simp [descendantsFuel, cyclic_children, seqChildren, ih, ih2]

theorem cyclic_descendant_tree_none :
    ∀ fuel : Nat, descendant_treeFuel cyclicDB fuel cyclicOrg = none := by
  intro fuel
  induction fuel with
  | zero => rfl
  | succ n ih =>
    have ih2 : descendant_treeFuel cyclicDB n
        ⟨1, "Loop", some 1, none, none, none, none⟩ = none := ih
    simp [descendant_treeFuel, cyclic_children, seqTrees, ih, ih2]

/-- C7: over any well-formed acyclic stored forest every recursive
traversal — `ancestors`, `descendants`, `descendant_tree`,
`organization_tree`, `organization_ids` — terminates within fuel
`|orgs| + 1`; the code has no cycle guard, and on the self-parented
organization of `cyclicDB` each of these traversals fails to terminate
at every fuel. -/
theorem c7_termination (db : DB) (wf : WellFormed db) (hacyc : Acyclic db) :
    (∀ o ∈ db.orgs,
      (∃ l, ancestorsFuel db (db.orgs.length + 1) o = some l)
      ∧ (∃ ds, descendantsFuel db (db.orgs.length + 1) o = some ds)
      ∧ (∃ ts, descendant_treeFuel db (db.orgs.length + 1) o = some ts))
    ∧ (∀ a : Author,
        (∃ s, organization_treeFuel db (db.orgs.length + 1) a = some s)
        ∧ (∃ l, organization_idsFuel db (db.orgs.length + 1) a = some l))
    ∧ (∀ fuel : Nat,
        ancestorsFuel cyclicDB fuel cyclicOrg = none
        ∧ descendantsFuel cyclicDB fuel cyclicOrg = none
        ∧ descendant_treeFuel cyclicDB fuel cyclicOrg = none
        ∧ organization_treeFuel cyclicDB fuel cyclicAuthor = none
        ∧ organization_idsFuel cyclicDB fuel cyclicAuthor = none) := by
  have hanc : ∀ o : Organization,
      ∃ l, ancestorsFuel db (db.orgs.length + 1) o = some l := by
    intro o
    exact anc_terminates db hacyc _ o
      (Nat.lt_succ_of_le (ancSet_card_le db o))
  refine ⟨?_, ?_, ?_⟩
  · intro o ho
    obtain ⟨ds, hds⟩ := desc_terminates db wf hacyc _ o ho
      (Nat.lt_succ_of_le (descSet_card_le db o))
    exact ⟨hanc o, ⟨ds, hds⟩, descTree_of_desc hds⟩
  · intro a
    cases horg : organizationOf db a with
    | none =>
      exact ⟨⟨"", by simp [organization_treeFuel, horg]⟩,
        ⟨[], by simp [organization_idsFuel, horg]⟩⟩
    | some o =>
      obtain ⟨l, hl⟩ := hanc o
      refine ⟨⟨String.intercalate " :: "
          ((o :: l).reverse.map (fun x => x.name)), ?_⟩,
        ⟨(o :: l).reverse.map (fun x => x.id), ?_⟩⟩
      · have hstep : organization_treeFuel db (db.orgs.length + 1) a =
            Option.map (fun ancestors => String.intercalate " :: "
              (((o :: ancestors).reverse).map (fun x => x.name)))
              (ancestorsFuel db (db.orgs.length + 1) o) := by
          unfold organization_treeFuel
          rw [horg]
        rw [hstep, hl]
        rfl
      · have hstep : organization_idsFuel db (db.orgs.length + 1) a =
            Option.map (fun ancestors =>
              ((o :: ancestors).reverse).map (fun x => x.id))
              (ancestorsFuel db (db.orgs.length + 1) o) := by
          unfold organization_idsFuel
          rw [horg]
        rw [hstep, hl]
        rfl
  · intro fuel
    have horg : organizationOf cyclicDB cyclicAuthor = some cyclicOrg := rfl
    refine ⟨cyclic_ancestors_none fuel, cyclic_descendants_none fuel,
      cyclic_descendant_tree_none fuel, ?_, ?_⟩
    · simp [organization_treeFuel, horg, cyclic_ancestors_none fuel]
    · simp [organization_idsFuel, horg, cyclic_ancestors_none fuel]

/-- C7 witness: the example forest's traversals all terminate at fuel
`4 = |orgs| + 1`, while the cyclic state's ancestors walk returns no
result at fuel 100. -/
theorem c7_witness :
    (∃ l, ancestorsFuel exampleDB 4 orgC = some l)
    ∧ (∃ ds, descendantsFuel exampleDB 4 orgA = some ds)
    ∧ (∃ ts, descendant_treeFuel exampleDB 4 orgA = some ts)
    ∧ (∃ s, organization_treeFuel exampleDB 4 authorX = some s)
    ∧ ancestorsFuel cyclicDB 100 cyclicOrg = none := by
  have hacyc : Acyclic exampleDB :=
    @acyclic_of_desc_isSome exampleDB 4 (by decide)
  have h := c7_termination exampleDB (by unfold WellFormed; decide) hacyc
  have hC := h.1 orgC (by decide)
  have hA := h.1 orgA (by decide)
  exact ⟨hC.1, hA.2.1, hA.2.2, (h.2.1 authorX).1, (h.2.2 100).1⟩

end CitationModels
